import Mathlib

/-!
# Verification of the button-network random-graph growth simulator

Shallow embedding of the simulation core of `docs/agentpy_button_network.ipynb`
(`ButtonModel`), re-architected by the specification as
`RandomGraphGrowthSimulator`.

The notebook model keeps `n` buttons (nodes), a running `threads` counter and
a simple undirected graph; each step adds `int(n * speed)` edges between pairs
of distinct randomly chosen nodes (`self.agents.random(2)` samples two agents
without replacement), then the recorder appends the fraction of the largest
connected component and the threads-to-node ratio.

Embedding choices:
* Machine floats (`speed` and the recorded ratios) are modelled as `ℚ`;
  `int(n * speed)` (truncation towards zero applied to a non-negative product)
  is `(⌊(n : ℚ) * speed⌋).toNat`.
* The connected-component partition maintained by the graph library is
  modelled by a labelling list: entry `i` is the component label of node `i`;
  adding an edge merges the two endpoint labels.  The largest-component size
  is the maximal label multiplicity.
* The random source is an explicit stream: `stream k i` is the `i`-th pair of
  nodes drawn during step `k`.  The library's sampling of two distinct agents
  is the hypothesis `ValidStream`.
-/

/-- Labelling of nodes `0 … n-1` by connected-component labels: initially every
node is its own singleton component (`ButtonModel.setup`: agents added to the
network with no edges). -/
def initLabels (n : ℕ) : List ℕ := List.range n

/-- Merge the components of nodes `a` and `b`: every node carrying `b`'s label
is relabelled with `a`'s label (the effect of `graph.add_edge` on the
connected-component partition). -/
def mergeEdge (labels : List ℕ) (a b : ℕ) : List ℕ :=
  labels.map (fun l => if l = labels.getD b 0 then labels.getD a 0 else l)

/-- Number of nodes carrying label `x`: the size of component `x`. -/
def countLabel (x : ℕ) : List ℕ → ℕ
  | [] => 0
  | y :: ys => (if y = x then 1 else 0) + countLabel x ys

/-- Size of the largest connected component:
`max([len(g) for g in nx.connected_components(...)])` in `ButtonModel.update`. -/
def maxClusterSize (labels : List ℕ) : ℕ :=
  (labels.map (fun l => countLabel l labels)).foldr max 0

/-- The state of one simulation run. -/
structure ButtonState where
  n : ℕ
  labels : List ℕ
  edges : List (ℕ × ℕ)
  threads : ℕ
  log : List (ℚ × ℚ)
deriving Repr, DecidableEq

/-- One edge-addition event of `ButtonModel.step`:
`self.buttons.graph.add_edge(*self.agents.random(2).node); self.threads += 1`. -/
def addEdge (s : ButtonState) (p : ℕ × ℕ) : ButtonState :=
  { s with labels := mergeEdge s.labels p.1 p.2
           edges := p :: s.edges
           threads := s.threads + 1 }

/-- Number of edges added per step: `int(self.p.n * self.p.speed)` in
`ButtonModel.step` (truncation equals floor on the non-negative products
arising from valid configurations). -/
def edgesPerStep (n : ℕ) (speed : ℚ) : ℕ := (⌊(n : ℚ) * speed⌋).toNat

/-- The edge-addition loop of `ButtonModel.step`: fold the step's draws into
the state. -/
def stepAdds (s : ButtonState) (draws : List (ℕ × ℕ)) : ButtonState :=
  draws.foldl addEdge s

/-- `max_cluster_size` as recorded by `ButtonModel.update`:
largest component size divided by `n`. -/
def maxClusterFraction (s : ButtonState) : ℚ :=
  (maxClusterSize s.labels : ℚ) / (s.n : ℚ)

/-- `threads_to_button` as recorded by `ButtonModel.update`. -/
def threadsRatio (s : ButtonState) : ℚ := (s.threads : ℚ) / (s.n : ℚ)

/-- The pair of metrics recorded for one step (the MetricsLog entry). -/
def metricsPair (s : ButtonState) : ℚ × ℚ := (threadsRatio s, maxClusterFraction s)

/-- The recording hook `ButtonModel.update`: append one metrics pair to the log. -/
def update (s : ButtonState) : ButtonState :=
  { s with log := s.log ++ [metricsPair s] }

/-- One simulation step (`runStep()` of the spec): perform this step's
`edgesPerStep` edge additions (`ButtonModel.step`), then record the metrics
(`ButtonModel.update`, which the framework invokes after each step). -/
def runStep (speed : ℚ) (draw : ℕ → ℕ × ℕ) (s : ButtonState) : ButtonState :=
  update (stepAdds s ((List.range (edgesPerStep s.n speed)).map draw))

/-- Initial state built by `ButtonModel.setup`: `n` isolated nodes, no edges,
`threads = 0`, empty log. -/
def initState (n : ℕ) : ButtonState :=
  { n := n, labels := initLabels n, edges := [], threads := 0, log := [] }

/-- `run()` of the spec: execute `runStep` once per step, in order, starting
from the initial state.  `stream k i` is the `i`-th random pair of step `k`. -/
def run (n : ℕ) (speed : ℚ) (steps : ℕ) (stream : ℕ → ℕ → ℕ × ℕ) : ButtonState :=
  (List.range steps).foldl (fun s k => runStep speed (stream k) s) (initState n)

/-- The state of step `k` right after its edge additions, before recording. -/
def afterAdds (n : ℕ) (speed : ℚ) (stream : ℕ → ℕ → ℕ × ℕ) (k : ℕ) : ButtonState :=
  stepAdds (run n speed k stream)
    ((List.range (edgesPerStep (run n speed k stream).n speed)).map (stream k))

/-- The random source draws two distinct agents (`self.agents.random(2)`
samples without replacement from the `n` agents): every drawn pair consists of
two distinct node indices below `n`. -/
def ValidStream (n : ℕ) (stream : ℕ → ℕ → ℕ × ℕ) : Prop :=
  ∀ k i, (stream k i).1 < n ∧ (stream k i).2 < n ∧ (stream k i).1 ≠ (stream k i).2

/-- The configuration error of the spec's taxonomy. -/
inductive SimError where
  | invalidConfiguration
deriving Repr, DecidableEq

/-- Modelled from the spec: the constructor of `RandomGraphGrowthSimulator` is
not part of the notebook (`ButtonModel.setup` performs no validation; parameter
handling is delegated to the excluded framework driver).  Per the spec,
construction fails with `InvalidConfiguration` when `n < 2` or `speed < 0` or
`steps < 0`, and otherwise succeeds with `n` singleton clusters, empty edge
set, zero threads and empty log. -/
def mkSimulator (n : ℤ) (speed : ℚ) (steps : ℤ) : Except SimError ButtonState :=
  if n < 2 ∨ speed < 0 ∨ steps < 0 then
    Except.error SimError.invalidConfiguration
  else
    Except.ok (initState n.toNat)

/-! ## Lemmas about labels, counts and the largest-component size -/

theorem countLabel_le_length (x : ℕ) (l : List ℕ) : countLabel x l ≤ l.length := by
  induction l with
  | nil => simp [countLabel]
  | cons y ys ih =>
    simp only [countLabel, List.length_cons]
    split <;> omega

theorem le_foldr_max {x : ℕ} {l : List ℕ} (hx : x ∈ l) : x ≤ l.foldr max 0 := by
  induction l with
  | nil => cases hx
  | cons y ys ih =>
    rcases List.mem_cons.mp hx with h | h
    · subst h; exact le_max_left _ _
    · exact le_trans (ih h) (le_max_right _ _)

theorem foldr_max_le {b : ℕ} {l : List ℕ} (h : ∀ x ∈ l, x ≤ b) :
    l.foldr max 0 ≤ b := by
  induction l with
  | nil => simp
  | cons y ys ih =>
    simp only [List.foldr_cons]
    exact max_le (h y (List.mem_cons_self y ys)) (ih fun x hx => h x (List.mem_cons_of_mem _ hx))

theorem countLabel_le_maxClusterSize {x : ℕ} {l : List ℕ} (hx : x ∈ l) :
    countLabel x l ≤ maxClusterSize l :=
  le_foldr_max (List.mem_map.mpr ⟨x, hx, rfl⟩)

theorem maxClusterSize_le_length (l : List ℕ) : maxClusterSize l ≤ l.length :=
  foldr_max_le fun x hx => by
    rcases List.mem_map.mp hx with ⟨y, _, rfl⟩
    exact countLabel_le_length y l

theorem one_le_countLabel_self {x : ℕ} {l : List ℕ} (hx : x ∈ l) :
    1 ≤ countLabel x l := by
  induction l with
  | nil => cases hx
  | cons y ys ih =>
    rcases List.mem_cons.mp hx with h | h
    · subst h; simp [countLabel]
    · simp only [countLabel]
      have := ih h
      split <;> omega

theorem one_le_maxClusterSize {l : List ℕ} (h : l ≠ []) : 1 ≤ maxClusterSize l := by
  rcases l with _ | ⟨y, ys⟩
  · exact absurd rfl h
  · exact le_trans (one_le_countLabel_self (List.mem_cons_self y ys))
      (countLabel_le_maxClusterSize (List.mem_cons_self y ys))

theorem countLabel_le_map (f : ℕ → ℕ) (x : ℕ) (l : List ℕ) :
    countLabel x l ≤ countLabel (f x) (l.map f) := by
  induction l with
  | nil => simp [countLabel]
  | cons y ys ih =>
    simp only [List.map_cons, countLabel]
    by_cases hyx : y = x
    · subst hyx; simp only [if_pos rfl]; omega
    · simp only [if_neg hyx]
      split <;> omega

theorem maxClusterSize_le_map (f : ℕ → ℕ) (l : List ℕ) :
    maxClusterSize l ≤ maxClusterSize (l.map f) := by
  refine foldr_max_le fun x hx => ?_
  rcases List.mem_map.mp hx with ⟨y, hy, rfl⟩
  exact le_trans (countLabel_le_map f y l)
    (countLabel_le_maxClusterSize (List.mem_map.mpr ⟨y, hy, rfl⟩))

theorem mergeEdge_length (l : List ℕ) (a b : ℕ) :
    (mergeEdge l a b).length = l.length := by
  simp [mergeEdge]

theorem maxClusterSize_le_mergeEdge (l : List ℕ) (a b : ℕ) :
    maxClusterSize l ≤ maxClusterSize (mergeEdge l a b) :=
  maxClusterSize_le_map _ l

theorem map_if_eq_self (c : ℕ) (l : List ℕ) :
    (l.map fun x => if x = c then c else x) = l := by
  induction l with
  | nil => rfl
  | cons y ys ih =>
    simp only [List.map_cons, ih]
    split
    · simp_all
    · rfl

theorem mergeEdge_of_eq {l : List ℕ} {a b : ℕ} (h : l.getD a 0 = l.getD b 0) :
    mergeEdge l a b = l := by
  unfold mergeEdge
  rw [← h]
  exact map_if_eq_self (l.getD a 0) l

theorem getD_map_zero (f : ℕ → ℕ) {l : List ℕ} {i : ℕ} (hi : i < l.length) :
    (l.map f).getD i 0 = f (l.getD i 0) := by
  induction l generalizing i with
  | nil => simp at hi
  | cons y ys ih =>
    cases i with
    | zero => simp
    | succ j =>
      simp only [List.map_cons, List.getD_cons_succ]
      exact ih (by simpa using hi)

theorem mergeEdge_getD_eq {l : List ℕ} {i j : ℕ} (a b : ℕ)
    (hi : i < l.length) (hj : j < l.length) (h : l.getD i 0 = l.getD j 0) :
    (mergeEdge l a b).getD i 0 = (mergeEdge l a b).getD j 0 := by
  unfold mergeEdge
  rw [getD_map_zero _ hi, getD_map_zero _ hj, h]

theorem mergeEdge_connects {l : List ℕ} {a b : ℕ}
    (ha : a < l.length) (hb : b < l.length) :
    (mergeEdge l a b).getD a 0 = (mergeEdge l a b).getD b 0 := by
  unfold mergeEdge
  rw [getD_map_zero _ ha, getD_map_zero _ hb]
  by_cases h : l.getD a 0 = l.getD b 0
  · rw [h]
  · rw [if_neg h, if_pos rfl]

theorem maxClusterSize_pair {l : List ℕ} (hlen : l.length = 2)
    (heq : l.getD 0 0 = l.getD 1 0) : maxClusterSize l = 2 := by
  match l, hlen with
  | [a, b], _ =>
    simp only [List.getD_cons_zero, List.getD_cons_succ] at heq
    subst heq
    simp [maxClusterSize, countLabel]

/-! ## Structural lemmas about edge additions, steps and runs -/

theorem stepAdds_n (s : ButtonState) (ds : List (ℕ × ℕ)) :
    (stepAdds s ds).n = s.n := by
  induction ds generalizing s with
  | nil => rfl
  | cons d ds ih => simpa [stepAdds, addEdge] using ih (addEdge s d)

theorem stepAdds_log (s : ButtonState) (ds : List (ℕ × ℕ)) :
    (stepAdds s ds).log = s.log := by
  induction ds generalizing s with
  | nil => rfl
  | cons d ds ih => simpa [stepAdds, addEdge] using ih (addEdge s d)

theorem stepAdds_threads (s : ButtonState) (ds : List (ℕ × ℕ)) :
    (stepAdds s ds).threads = s.threads + ds.length := by
  induction ds generalizing s with
  | nil => rfl
  | cons d ds ih =>
    simp only [stepAdds, List.foldl_cons]
    have h := ih (addEdge s d)
    simp only [stepAdds] at h
    rw [h]
    simp only [addEdge, List.length_cons]
    omega

theorem stepAdds_labels_length (s : ButtonState) (ds : List (ℕ × ℕ)) :
    (stepAdds s ds).labels.length = s.labels.length := by
  induction ds generalizing s with
  | nil => rfl
  | cons d ds ih =>
    simp only [stepAdds, List.foldl_cons]
    have h := ih (addEdge s d)
    simp only [stepAdds] at h
    rw [h]
    simp only [addEdge, mergeEdge_length]

theorem stepAdds_maxClusterSize_le (s : ButtonState) (ds : List (ℕ × ℕ)) :
    maxClusterSize s.labels ≤ maxClusterSize (stepAdds s ds).labels := by
  induction ds generalizing s with
  | nil => exact le_refl _
  | cons d ds ih =>
    simp only [stepAdds, List.foldl_cons]
    exact le_trans (maxClusterSize_le_mergeEdge s.labels d.1 d.2) (ih (addEdge s d))

theorem stepAdds_getD_eq {s : ButtonState} (ds : List (ℕ × ℕ)) {i j : ℕ}
    (hi : i < s.labels.length) (hj : j < s.labels.length)
    (h : s.labels.getD i 0 = s.labels.getD j 0) :
    (stepAdds s ds).labels.getD i 0 = (stepAdds s ds).labels.getD j 0 := by
  induction ds generalizing s with
  | nil => exact h
  | cons d ds ih =>
    simp only [stepAdds, List.foldl_cons] at ih ⊢
    refine ih (s := addEdge s d) ?_ ?_ ?_
    · simpa [addEdge, mergeEdge_length] using hi
    · simpa [addEdge, mergeEdge_length] using hj
    · exact mergeEdge_getD_eq d.1 d.2 hi hj h

theorem stepAdds_edges_subset {s : ButtonState} {ds : List (ℕ × ℕ)} {p : ℕ × ℕ}
    (hp : p ∈ (stepAdds s ds).edges) : p ∈ ds ∨ p ∈ s.edges := by
  induction ds generalizing s with
  | nil => exact Or.inr hp
  | cons d ds ih =>
    simp only [stepAdds, List.foldl_cons] at hp
    rcases ih hp with h | h
    · exact Or.inl (List.mem_cons_of_mem _ h)
    · rcases List.mem_cons.mp h with h' | h'
      · exact Or.inl (h' ▸ List.mem_cons_self d ds)
      · exact Or.inr h'

theorem run_zero (n : ℕ) (speed : ℚ) (stream : ℕ → ℕ → ℕ × ℕ) :
    run n speed 0 stream = initState n := rfl

theorem run_succ (n : ℕ) (speed : ℚ) (k : ℕ) (stream : ℕ → ℕ → ℕ × ℕ) :
    run n speed (k + 1) stream = runStep speed (stream k) (run n speed k stream) := by
  unfold run
  rw [List.range_succ, List.foldl_append]
  rfl

theorem run_succ_afterAdds (n : ℕ) (speed : ℚ) (k : ℕ) (stream : ℕ → ℕ → ℕ × ℕ) :
    run n speed (k + 1) stream = update (afterAdds n speed stream k) := by
  rw [run_succ]; rfl

theorem run_n (n : ℕ) (speed : ℚ) (k : ℕ) (stream : ℕ → ℕ → ℕ × ℕ) :
    (run n speed k stream).n = n := by
  induction k with
  | zero => rfl
  | succ k ih =>
    rw [run_succ_afterAdds]
    simpa [update, afterAdds, stepAdds_n] using ih

theorem afterAdds_n (n : ℕ) (speed : ℚ) (stream : ℕ → ℕ → ℕ × ℕ) (k : ℕ) :
    (afterAdds n speed stream k).n = n := by
  simp [afterAdds, stepAdds_n, run_n]

theorem run_labels_length (n : ℕ) (speed : ℚ) (k : ℕ) (stream : ℕ → ℕ → ℕ × ℕ) :
    (run n speed k stream).labels.length = n := by
  induction k with
  | zero => simp [run_zero, initState, initLabels]
  | succ k ih =>
    rw [run_succ_afterAdds]
    simpa [update, afterAdds, stepAdds_labels_length] using ih

theorem afterAdds_labels_length (n : ℕ) (speed : ℚ) (stream : ℕ → ℕ → ℕ × ℕ) (k : ℕ) :
    (afterAdds n speed stream k).labels.length = n := by
  simp [afterAdds, stepAdds_labels_length, run_labels_length]

theorem afterAdds_threads (n : ℕ) (speed : ℚ) (stream : ℕ → ℕ → ℕ × ℕ) (k : ℕ) :
    (afterAdds n speed stream k).threads =
      (run n speed k stream).threads + edgesPerStep n speed := by
  simp [afterAdds, stepAdds_threads, run_n]

theorem run_threads (n : ℕ) (speed : ℚ) (k : ℕ) (stream : ℕ → ℕ → ℕ × ℕ) :
    (run n speed k stream).threads = k * edgesPerStep n speed := by
  induction k with
  | zero => simp [run_zero, initState]
  | succ k ih =>
    rw [run_succ_afterAdds]
    simp only [update]
    rw [afterAdds_threads, ih]
    ring

theorem run_log (n : ℕ) (speed : ℚ) (steps : ℕ) (stream : ℕ → ℕ → ℕ × ℕ) :
    (run n speed steps stream).log =
      (List.range steps).map (fun k => metricsPair (afterAdds n speed stream k)) := by
  induction steps with
  | zero => rfl
  | succ k ih =>
    rw [run_succ_afterAdds, List.range_succ, List.map_append]
    simp only [update, afterAdds]
    rw [stepAdds_log, ih]
    rfl

/-! ## Ratio helpers and the edge-connectivity invariant -/

theorem ratio_nonneg (m n : ℕ) : (0 : ℚ) ≤ (m : ℚ) / (n : ℚ) :=
  div_nonneg (by positivity) (by positivity)

theorem ratio_le_one {m n : ℕ} (h : m ≤ n) : (m : ℚ) / (n : ℚ) ≤ 1 := by
  rcases Nat.eq_zero_or_pos n with h0 | h0
  · subst h0; simp
  · rw [div_le_one (by exact_mod_cast h0)]
    exact_mod_cast h

theorem ratio_mono {a b : ℕ} (n : ℕ) (h : a ≤ b) :
    (a : ℚ) / (n : ℚ) ≤ (b : ℚ) / (n : ℚ) :=
  div_le_div_of_nonneg_right (by exact_mod_cast h) (by positivity)

theorem stepAdds_edges (s : ButtonState) (ds : List (ℕ × ℕ)) :
    (stepAdds s ds).edges = ds.reverse ++ s.edges := by
  induction ds generalizing s with
  | nil => rfl
  | cons d ds ih =>
    simp only [stepAdds, List.foldl_cons] at ih ⊢
    rw [ih (addEdge s d)]
    simp [addEdge]

/-- Every recorded edge joins two in-range nodes whose labels agree: the
labelling connects the endpoints of every edge added so far. -/
def EdgesOK (s : ButtonState) : Prop :=
  ∀ p ∈ s.edges, p.1 < s.labels.length ∧ p.2 < s.labels.length ∧
    s.labels.getD p.1 0 = s.labels.getD p.2 0

theorem addEdge_edgesOK {s : ButtonState} {d : ℕ × ℕ} (hs : EdgesOK s)
    (h1 : d.1 < s.labels.length) (h2 : d.2 < s.labels.length) :
    EdgesOK (addEdge s d) := by
  intro p hp
  simp only [addEdge] at hp ⊢
  rw [mergeEdge_length]
  rcases List.mem_cons.mp hp with h | h
  · subst h
    exact ⟨h1, h2, mergeEdge_connects h1 h2⟩
  · obtain ⟨q1, q2, qeq⟩ := hs p h
    exact ⟨q1, q2, mergeEdge_getD_eq d.1 d.2 q1 q2 qeq⟩

theorem stepAdds_edgesOK {s : ButtonState} {ds : List (ℕ × ℕ)} (hs : EdgesOK s)
    (hds : ∀ d ∈ ds, d.1 < s.labels.length ∧ d.2 < s.labels.length) :
    EdgesOK (stepAdds s ds) := by
  induction ds generalizing s with
  | nil => exact hs
  | cons d ds ih =>
    simp only [stepAdds, List.foldl_cons] at ih ⊢
    have hd := hds d (List.mem_cons_self d ds)
    refine ih (addEdge_edgesOK hs hd.1 hd.2) ?_
    intro e he
    have := hds e (List.mem_cons_of_mem d he)
    simp only [addEdge]
    rw [mergeEdge_length]
    exact this

theorem run_edgesOK {n : ℕ} {stream : ℕ → ℕ → ℕ × ℕ} (speed : ℚ) (k : ℕ)
    (hv : ValidStream n stream) : EdgesOK (run n speed k stream) := by
  induction k with
  | zero =>
    intro p hp
    simp [run_zero, initState] at hp
  | succ k ih =>
    rw [run_succ_afterAdds]
    intro p hp
    simp only [update] at hp ⊢
    have hOK : EdgesOK (afterAdds n speed stream k) := by
      refine stepAdds_edgesOK ih ?_
      intro d hd
      rcases List.mem_map.mp hd with ⟨i, _, rfl⟩
      have := hv k i
      rw [run_labels_length]
      exact ⟨this.1, this.2.1⟩
    exact hOK p hp

theorem run_edges_ne {n : ℕ} {stream : ℕ → ℕ → ℕ × ℕ} (speed : ℚ) (k : ℕ)
    (hv : ValidStream n stream) :
    ∀ p ∈ (run n speed k stream).edges, p.1 ≠ p.2 := by
  induction k with
  | zero =>
    intro p hp
    simp [run_zero, initState] at hp
  | succ k ih =>
    rw [run_succ_afterAdds]
    intro p hp
    simp only [update, afterAdds] at hp
    rcases stepAdds_edges_subset hp with h | h
    · rcases List.mem_map.mp h with ⟨i, _, rfl⟩
      exact (hv k i).2.2
    · exact ih p h

/-! ## Claim theorems -/

/-- **C1**: constructing a run with `n < 2`, `speed < 0` or `steps < 0` fails
with `InvalidConfiguration` synchronously at construction time, before any
step runs; construction with `n ≥ 2`, `speed ≥ 0`, `steps ≥ 0` succeeds, and
after a successful construction no operation of the run can fail: `run` is
total and always returns a complete log of `steps` entries. -/
theorem mkSimulator_validates (n : ℤ) (speed : ℚ) (steps : ℤ) :
    (mkSimulator n speed steps = Except.error SimError.invalidConfiguration ↔
      n < 2 ∨ speed < 0 ∨ steps < 0) ∧
    (2 ≤ n → 0 ≤ speed → 0 ≤ steps →
      mkSimulator n speed steps = Except.ok (initState n.toNat) ∧
      ∀ stream : ℕ → ℕ → ℕ × ℕ,
        (run n.toNat speed steps.toNat stream).log.length = steps.toNat) := by
  constructor
  · by_cases h : n < 2 ∨ speed < 0 ∨ steps < 0
    · simp [mkSimulator, h]
    · simp [mkSimulator, h]
  · intro h1 h2 h3
    have h : ¬(n < 2 ∨ speed < 0 ∨ steps < 0) := by
      push_neg
      exact ⟨by omega, h2, h3⟩
    refine ⟨by simp [mkSimulator, h], fun stream => ?_⟩
    rw [run_log]
    simp

/-- **C1 witness**: at `n = 3`, `speed = 1/2`, `steps = 4` construction
succeeds and the run records 4 entries. -/
theorem mkSimulator_validates_witness :
    mkSimulator 3 (1 / 2) 4 = Except.ok (initState 3) ∧
    (run 3 (1 / 2) 4 (fun _ _ => (0, 1))).log.length = 4 := by
  have h := (mkSimulator_validates 3 (1 / 2) 4).2 (by norm_num) (by norm_num) (by norm_num)
  exact ⟨h.1, h.2 (fun _ _ => (0, 1))⟩

/-- **C2**: exactly one metrics pair is appended to the log per simulation
step, each appended after that step's edge additions (`run (k+1)` records the
metrics of the state reached by step `k`'s additions), so the log returned by
`run` has exactly `steps` entries. -/
theorem run_log_one_entry_per_step (n : ℕ) (speed : ℚ) (steps : ℕ)
    (stream : ℕ → ℕ → ℕ × ℕ) :
    (∀ k, run n speed (k + 1) stream = update (afterAdds n speed stream k)) ∧
    (run n speed steps stream).log =
      (List.range steps).map (fun k => metricsPair (afterAdds n speed stream k)) ∧
    (run n speed steps stream).log.length = steps := by
  refine ⟨fun k => run_succ_afterAdds n speed k stream, run_log n speed steps stream, ?_⟩
  rw [run_log]
  simp

/-- **C4**: every recorded `max_cluster_fraction` lies between 0 and 1. -/
theorem run_max_cluster_fraction_bounds (n : ℕ) (speed : ℚ) (steps : ℕ)
    (stream : ℕ → ℕ → ℕ × ℕ) :
    ∀ e ∈ (run n speed steps stream).log, 0 ≤ e.2 ∧ e.2 ≤ 1 := by
  intro e he
  rw [run_log] at he
  rcases List.mem_map.mp he with ⟨k, _, rfl⟩
  simp only [metricsPair, maxClusterFraction]
  refine ⟨ratio_nonneg _ _, ratio_le_one ?_⟩
  calc maxClusterSize (afterAdds n speed stream k).labels
      ≤ (afterAdds n speed stream k).labels.length := maxClusterSize_le_length _
    _ = n := afterAdds_labels_length n speed stream k
    _ = (afterAdds n speed stream k).n := (afterAdds_n n speed stream k).symm

/-- **C4 witness**: bounds hold for the entry recorded by a concrete run with
`n = 2`, `speed = 1`, `steps = 1`. -/
theorem run_max_cluster_fraction_bounds_witness :
    0 ≤ (metricsPair (afterAdds 2 1 (fun _ _ => (0, 1)) 0)).2 ∧
    (metricsPair (afterAdds 2 1 (fun _ _ => (0, 1)) 0)).2 ≤ 1 :=
  run_max_cluster_fraction_bounds 2 1 1 (fun _ _ => (0, 1)) _
    (by rw [run_log]; simp)

/-- **C5**: `threads_to_node_ratio` is non-decreasing between consecutive log
entries of one run. -/
theorem run_threads_ratio_monotone (n : ℕ) (speed : ℚ) (steps : ℕ)
    (stream : ℕ → ℕ → ℕ × ℕ) :
    List.Chain' (fun a b : ℚ × ℚ => a.1 ≤ b.1) (run n speed steps stream).log := by
  rw [run_log]
  apply (List.chain'_map _).mpr
  cases steps with
  | zero => simp
  | succ m =>
    apply (List.chain'_range_succ _ m).mpr
    intro k _
    simp only [metricsPair, threadsRatio]
    rw [afterAdds_n, afterAdds_n]
    apply ratio_mono
    rw [afterAdds_threads, afterAdds_threads, run_threads, run_threads]
    exact Nat.add_le_add_right (mul_le_mul_right' (Nat.le_succ k) _) _

/-- **C9**: the simulation is deterministic given its random source — two runs
with identical configuration and identical seeded random stream produce
identical logs. -/
theorem run_deterministic (n₁ n₂ : ℕ) (speed₁ speed₂ : ℚ) (steps₁ steps₂ : ℕ)
    (stream₁ stream₂ : ℕ → ℕ → ℕ × ℕ) (hn : n₁ = n₂) (hs : speed₁ = speed₂)
    (ht : steps₁ = steps₂) (hst : stream₁ = stream₂) :
    (run n₁ speed₁ steps₁ stream₁).log = (run n₂ speed₂ steps₂ stream₂).log := by
  subst hn hs ht hst
  rfl

/-- **C9 witness**: determinism instantiated at a concrete configuration. -/
theorem run_deterministic_witness :
    (run 2 1 1 (fun _ _ => (0, 1))).log = (run 2 1 1 (fun _ _ => (0, 1))).log :=
  run_deterministic 2 2 1 1 1 1 (fun _ _ => (0, 1)) (fun _ _ => (0, 1))
    rfl rfl rfl rfl

/-- **C10**: every recorded `max_cluster_fraction` is at least `1/n`: all `n`
nodes are present from construction onward, so the largest cluster has size at
least 1. -/
theorem run_max_cluster_fraction_lower_bound (n : ℕ) (speed : ℚ) (steps : ℕ)
    (stream : ℕ → ℕ → ℕ × ℕ) (hn : 1 ≤ n) :
    ∀ e ∈ (run n speed steps stream).log, (1 : ℚ) / (n : ℚ) ≤ e.2 := by
  intro e he
  rw [run_log] at he
  rcases List.mem_map.mp he with ⟨k, _, rfl⟩
  simp only [metricsPair, maxClusterFraction]
  rw [afterAdds_n]
  have h1 : 1 ≤ maxClusterSize (afterAdds n speed stream k).labels := by
    apply one_le_maxClusterSize
    have hl := afterAdds_labels_length n speed stream k
    intro hnil
    rw [hnil] at hl
    simp at hl
    omega
  have h2 := ratio_mono (a := 1) n h1
  simpa using h2

/-- **C10 witness**: the lower bound `1/2` holds for the entry recorded by a
concrete run with `n = 2`. -/
theorem run_max_cluster_fraction_lower_bound_witness :
    (1 : ℚ) / (2 : ℕ) ≤ (metricsPair (afterAdds 2 1 (fun _ _ => (0, 1)) 0)).2 :=
  run_max_cluster_fraction_lower_bound 2 1 1 (fun _ _ => (0, 1)) (by norm_num) _
    (by rw [run_log]; simp)

theorem stepAdds_cons (s : ButtonState) (d : ℕ × ℕ) (ds : List (ℕ × ℕ)) :
    stepAdds s (d :: ds) = stepAdds (addEdge s d) ds := rfl

theorem run_succ_labels (n : ℕ) (speed : ℚ) (k : ℕ) (stream : ℕ → ℕ → ℕ × ℕ) :
    (run n speed (k + 1) stream).labels = (afterAdds n speed stream k).labels := by
  rw [run_succ_afterAdds]
  rfl

/-- **C6**: the recorded `max_cluster_fraction` is non-decreasing step over
step: edges are only added, clusters only merge. -/
theorem run_max_cluster_fraction_monotone (n : ℕ) (speed : ℚ) (steps : ℕ)
    (stream : ℕ → ℕ → ℕ × ℕ) :
    List.Chain' (fun a b : ℚ × ℚ => a.2 ≤ b.2) (run n speed steps stream).log := by
  rw [run_log]
  apply (List.chain'_map _).mpr
  cases steps with
  | zero => simp
  | succ m =>
    apply (List.chain'_range_succ _ m).mpr
    intro k _
    simp only [metricsPair, maxClusterFraction]
    rw [afterAdds_n, afterAdds_n]
    apply ratio_mono
    calc maxClusterSize (afterAdds n speed stream k).labels
        = maxClusterSize (run n speed (k + 1) stream).labels := by
          rw [run_succ_labels]
      _ ≤ maxClusterSize (afterAdds n speed stream (k + 1)).labels :=
          stepAdds_maxClusterSize_le _ _

/-- **C3**: both endpoints of every added edge are distinct (a self-pair is
never added), and for `n = 2`, `steps = 1` and `⌊n·speed⌋ ≥ 1`, after the
single step the two nodes lie in the same cluster and the recorded
`max_cluster_fraction` equals 1. -/
theorem run_distinct_endpoints_boundary (n : ℕ) (speed : ℚ) (steps : ℕ)
    (stream : ℕ → ℕ → ℕ × ℕ) (hv : ValidStream n stream) :
    (∀ p ∈ (run n speed steps stream).edges, p.1 ≠ p.2) ∧
    (n = 2 → steps = 1 → 1 ≤ edgesPerStep 2 speed →
      (run n speed steps stream).labels.getD 0 0 =
        (run n speed steps stream).labels.getD 1 0 ∧
      ((run n speed steps stream).log.getD 0 (0, 0)).2 = 1) := by
  refine ⟨run_edges_ne speed steps hv, ?_⟩
  rintro rfl rfl hE
  have hrun : run 2 speed 1 stream = update (afterAdds 2 speed stream 0) :=
    run_succ_afterAdds 2 speed 0 stream
  have hget : (afterAdds 2 speed stream 0).labels.getD 0 0 =
      (afterAdds 2 speed stream 0).labels.getD 1 0 := by
    unfold afterAdds
    rw [run_zero]
    have hn2 : (initState 2).n = 2 := rfl
    rw [hn2]
    obtain ⟨m, hm⟩ := Nat.exists_eq_add_of_le hE
    rw [hm, Nat.add_comm 1 m, List.range_succ_eq_map, List.map_cons, stepAdds_cons]
    have hlen : (initState 2).labels.length = 2 := by simp [initState, initLabels]
    apply stepAdds_getD_eq
    · simp only [addEdge]
      rw [mergeEdge_length]
      omega
    · simp only [addEdge]
      rw [mergeEdge_length]
      omega
    · have hd := hv 0 0
      simp only [addEdge]
      rcases (by omega : ((stream 0 0).1 = 0 ∧ (stream 0 0).2 = 1) ∨
          ((stream 0 0).1 = 1 ∧ (stream 0 0).2 = 0)) with ⟨ha, hb⟩ | ⟨ha, hb⟩
      · rw [ha, hb]
        exact mergeEdge_connects (by omega) (by omega)
      · rw [ha, hb]
        exact (mergeEdge_connects (by omega) (by omega)).symm
  refine ⟨?_, ?_⟩
  · rw [hrun]
    exact hget
  · rw [hrun]
    have hlog0 : (afterAdds 2 speed stream 0).log = [] := by
      unfold afterAdds
      rw [stepAdds_log, run_zero]
      rfl
    simp only [update, hlog0, List.nil_append, List.getD_cons_zero]
    simp only [metricsPair, maxClusterFraction]
    rw [maxClusterSize_pair (afterAdds_labels_length 2 speed stream 0) hget,
      afterAdds_n]
    norm_num

/-- **C3 witness**: the boundary case at `n = 2`, `speed = 1`, `steps = 1`
with the constant draw `(0, 1)` records `max_cluster_fraction = 1`. -/
theorem run_distinct_endpoints_boundary_witness :
    ((run 2 1 1 (fun _ _ => (0, 1))).log.getD 0 (0, 0)).2 = 1 := by
  have hv : ValidStream 2 (fun _ _ => (0, 1)) := fun k i =>
    ⟨Nat.zero_lt_two, Nat.one_lt_two, Nat.zero_ne_one⟩
  have hE : edgesPerStep 2 1 = 2 := by
    simp only [edgesPerStep]
    norm_num
    decide
  exact ((run_distinct_endpoints_boundary 2 1 1 (fun _ _ => (0, 1)) hv).2
    rfl rfl (by rw [hE]; norm_num)).2

/-- **C7**: adding an edge whose endpoint pair is already present in the edge
set — in either orientation, since the pairs are undirected — increments the
thread count but leaves the cluster partition, and hence
`max_cluster_fraction`, unchanged. -/
theorem duplicate_edge_counts_thread_only (n : ℕ) (speed : ℚ) (steps : ℕ)
    (stream : ℕ → ℕ → ℕ × ℕ) (hv : ValidStream n stream) (p : ℕ × ℕ)
    (hmem : p ∈ (run n speed steps stream).edges ∨
      (p.2, p.1) ∈ (run n speed steps stream).edges) :
    (addEdge (run n speed steps stream) p).threads =
      (run n speed steps stream).threads + 1 ∧
    (addEdge (run n speed steps stream) p).labels =
      (run n speed steps stream).labels ∧
    maxClusterFraction (addEdge (run n speed steps stream) p) =
      maxClusterFraction (run n speed steps stream) := by
  have heq : (run n speed steps stream).labels.getD p.1 0 =
      (run n speed steps stream).labels.getD p.2 0 := by
    rcases hmem with h | h
    · exact (run_edgesOK speed steps hv p h).2.2
    · exact ((run_edgesOK speed steps hv (p.2, p.1) h).2.2).symm
  refine ⟨rfl, ?_, ?_⟩
  · simp only [addEdge]
    exact mergeEdge_of_eq heq
  · simp only [maxClusterFraction, addEdge]
    rw [mergeEdge_of_eq heq]

/-- **C7 witness**: re-adding the already present pair with swapped
orientation — `(1, 0)` after `(0, 1)` was drawn — after a concrete run leaves
the labelling unchanged. -/
theorem duplicate_edge_counts_thread_only_witness :
    (addEdge (run 2 1 1 (fun _ _ => (0, 1))) (1, 0)).labels =
      (run 2 1 1 (fun _ _ => (0, 1))).labels := by
  have hv : ValidStream 2 (fun _ _ => (0, 1)) := fun k i =>
    ⟨Nat.zero_lt_two, Nat.one_lt_two, Nat.zero_ne_one⟩
  have hE : edgesPerStep 2 1 = 2 := by
    simp only [edgesPerStep]
    norm_num
    decide
  have hedges : (run 2 1 1 (fun _ _ => (0, 1))).edges = [(0, 1), (0, 1)] := by
    have h := run_succ_afterAdds 2 1 0 (fun _ _ => (0, 1))
    norm_num at h
    rw [h]
    show (afterAdds 2 1 (fun _ _ => (0, 1)) 0).edges = _
    unfold afterAdds
    rw [stepAdds_edges, run_zero]
    have hn2 : (initState 2).n = 2 := rfl
    rw [hn2, hE]
    simp [initState, List.range_succ]
  exact (duplicate_edge_counts_thread_only 2 1 1 (fun _ _ => (0, 1)) hv (1, 0)
    (Or.inr (by rw [hedges]; simp))).2.1

theorem getD_map_range (f : ℕ → ℚ × ℚ) (m k : ℕ) (d : ℚ × ℚ) (hk : k < m) :
    ((List.range m).map f).getD k d = f k := by
  rw [List.getD_eq_getElem?_getD, List.getElem?_map, List.getElem?_range hk]
  rfl

/-- **C8**: each step adds exactly `⌊n·speed⌋` edges and increments the thread
count by the same amount; for `n = 100`, `speed = 1/20`, `steps = 30`, each
step adds 5 edges, the final thread count is 150 and the final recorded
`threads_to_node_ratio` is `3/2`. -/
theorem step_edge_count_and_scenario (n : ℕ) (speed : ℚ) (steps : ℕ)
    (stream : ℕ → ℕ → ℕ × ℕ) :
    ((afterAdds n speed stream steps).edges.length =
        (run n speed steps stream).edges.length + edgesPerStep n speed) ∧
    ((afterAdds n speed stream steps).threads =
        (run n speed steps stream).threads + edgesPerStep n speed) ∧
    (run n speed steps stream).threads = steps * edgesPerStep n speed ∧
    edgesPerStep 100 (1 / 20) = 5 ∧
    (run 100 (1 / 20) 30 stream).threads = 150 ∧
    ((run 100 (1 / 20) 30 stream).log.getD 29 (0, 0)).1 = 3 / 2 := by
  have hE5 : edgesPerStep 100 (1 / 20) = 5 := by
    simp only [edgesPerStep]
    norm_num
    decide
  refine ⟨?_, afterAdds_threads n speed stream steps,
    run_threads n speed steps stream, hE5, ?_, ?_⟩
  · unfold afterAdds
    rw [stepAdds_edges]
    simp only [List.length_append, List.length_reverse, List.length_map,
      List.length_range, run_n]
    omega
  · rw [run_threads, hE5]
  · rw [run_log, getD_map_range _ _ _ _ (by norm_num)]
    simp only [metricsPair, threadsRatio]
    rw [afterAdds_n, afterAdds_threads, run_threads, hE5]
    norm_num
